import Mathlib

/-!
# Verification of the I.DOT pipetting scheme generator core

Shallow embedding of the core planning logic of `generate_idot.py`:
well enumeration (`generate_target_wells`, `well_sort_key`), reaction
expansion (`build_combinatorial_reactions`, `build_manual_reactions`) and
dispense planning (`build_dispense_rows` with its inner
`pick_source_well` load balancer).

Modelling conventions:
* volumes are rationals (`ℚ`); Python's `round(x, 4)` is modelled by
  `round4`, rounding `x * 10000` to the nearest integer with ties to even
  (banker's rounding, as Python's `round` does);
* the Python exceptions raised by the core (`ValueError` with various
  messages) become constructors of `PlanError`, carrying exactly the data
  the corresponding message interpolates;
* the mutable dict `well_usage` becomes an explicit state `Usage`
  threaded through the planner; `dict.get(w, 0)` is function application,
  fresh creation is `emptyUsage`;
* the reagent→wells dict becomes an association list (Python dicts keep
  insertion order, which is what declaration order means here).
-/

namespace IDot

/-- Error cases of the core; each constructor corresponds to one `raise
ValueError(...)` site in the Python source, carrying the data that the
message interpolates. -/
inductive PlanError where
  /-- Raised by `generate_target_wells`: requested more wells than the plate has. -/
  | capacityExceeded (needed : Nat) (available : Nat)
  /-- Raised by `build_combinatorial_reactions`: no part groups provided. -/
  | noGroups
  /-- Raised by `build_manual_reactions`: no reactions found. -/
  | noManualReactions
  /-- Raised by `build_dispense_rows`: parts listed in reactions but absent from the
  source plate (the full sorted list). -/
  | missingReagents (missing : List String)
  /-- Raised by `build_dispense_rows`: a reaction's parts alone exceed the total
  volume; carries target well, part count, per-part volume, total volume. -/
  | volumeExceeded (target : String) (nParts : Nat) (dispenseVol totalVol : ℚ)
  /-- Raised by `pick_source_well`: `reagent_to_wells[reagent]` key lookup failure
  (Python `KeyError`; unreachable after the pre-flight check). -/
  | keyNotFound (reagent : String)
  /-- Raised by `pick_source_well`: `min()` over an empty well list (Python
  `ValueError`; only possible if a reagent maps to an empty list). -/
  | emptySourceWellList (reagent : String)
  deriving DecidableEq, Repr

/-- Equality of `Except` results is decidable whenever both component
types have decidable equality (used to evaluate concrete runs). -/
instance {ε α : Type _} [DecidableEq ε] [DecidableEq α] :
    DecidableEq (Except ε α) := fun x y =>
  match x, y with
  | .error e, .error f => decidable_of_iff (e = f) (by simp)
  | .error _, .ok _ => .isFalse (by simp)
  | .ok _, .error _ => .isFalse (by simp)
  | .ok a, .ok b => decidable_of_iff (a = b) (by simp)

/-- One `(source_well, target_well, volume_uL, liquid_name)` row. -/
structure DispenseRecord where
  source : String
  target : String
  volume : ℚ
  liquid : String
  deriving DecidableEq, Repr

/-! ## Well helpers -/

/-- The row alphabet `ROWS_96 = "ABCDEFGH"` as a list of characters. -/
def ROWS_96 : List Char := ['A', 'B', 'C', 'D', 'E', 'F', 'G', 'H']

/-- The column range `COLS_96 = range(1, 13)`. -/
def COLS_96 : List Nat := [1, 2, 3, 4, 5, 6, 7, 8, 9, 10, 11, 12]

/-- Python's `int(s)` on a string of decimal digits. -/
def digitsToNat (s : List Char) : Nat :=
  s.foldl (fun acc c => acc * 10 + (c.toNat - 48)) 0

/-- The key `well_sort_key(well) = (int(well[1:]), ROWS_96.index(well[0].upper()))`. -/
def well_sort_key (well : String) : Nat × Nat :=
  let cs := well.toList
  let row := (cs.headD 'A').toUpper
  let col := digitsToNat (cs.drop 1)
  (col, ROWS_96.indexOf row)

/-- The comprehension `[f"{r}{c}" for c in COLS_96 for r in ROWS_96]`:
all 96 wells in column-major order. -/
def all_wells_96 : List String :=
  COLS_96.flatMap (fun c => ROWS_96.map (fun r => String.singleton r ++ toString c))

/-- The enumeration `generate_target_wells(count)`: the first `count` wells of the
column-major enumeration, or an error when `count` exceeds 96. -/
def generate_target_wells (count : Nat) : Except PlanError (List String) :=
  if count > all_wells_96.length then
    .error (.capacityExceeded count all_wells_96.length)
  else
    .ok (all_wells_96.take count)

/-! ## Reaction builders -/

/-- Python's `itertools.product(*groups)`: Cartesian product of the groups, the
last group varying fastest (so the first varies slowest). -/
def cartesianProduct : List (List String) → List (List String)
  | [] => [[]]
  | g :: gs => g.flatMap (fun x => (cartesianProduct gs).map (fun rest => x :: rest))

/-- The expansion `build_combinatorial_reactions(common_parts, groups)`. -/
def build_combinatorial_reactions (common_parts : List String)
    (groups : List (List String)) :
    Except PlanError (List (String × List String)) :=
  if groups = [] then .error .noGroups
  else do
    let combos := cartesianProduct groups
    let targets ← generate_target_wells combos.length
    return targets.zip (combos.map (fun combo => combo ++ common_parts))

/-- The expansion `build_manual_reactions(manual_rows)`: identity pass-through failing
only on an empty list. -/
def build_manual_reactions (manual_rows : List (String × List String)) :
    Except PlanError (List (String × List String)) :=
  if manual_rows = [] then .error .noManualReactions
  else .ok manual_rows

/-! ## Dispensing logic -/

/-- The reagent→source-wells mapping (`reagent_to_wells` dict), as an
association list in declaration order. -/
abbrev ReagentMap := List (String × List String)

/-- Dict lookup `reagent_to_wells[reagent]` (first matching key). -/
def lookupReagent (m : ReagentMap) (r : String) : Option (List String) :=
  (m.find? (fun kv => kv.1 == r)).map (·.2)

/-- The `well_usage` dict with `.get(w, 0)` access semantics. -/
abbrev Usage := String → Nat

/-- The fresh dict `well_usage` (empty): every well has count 0. -/
def emptyUsage : Usage := fun _ => 0

/-- The update `well_usage[w] = well_usage.get(w, 0) + 1`. -/
def bumpUsage (u : Usage) (w : String) : Usage :=
  fun x => if x = w then u x + 1 else u x

/-- Python's `min(wells, key=lambda w: well_usage.get(w, 0))`: the scan
scans left to right keeping the current best and replacing it only on a
strictly smaller key, so the first element attaining the minimum wins. -/
def minByUsage (u : Usage) : List String → Option String
  | [] => none
  | w :: ws => some (ws.foldl (fun best x => if u x < u best then x else best) w)

/-- The selector `pick_source_well(reagent)`: choose the least-used declared well
(ties to the earliest-declared) and increment its usage count. -/
def pick_source_well (m : ReagentMap) (u : Usage) (reagent : String) :
    Except PlanError (String × Usage) :=
  match lookupReagent m reagent with
  | none => .error (.keyNotFound reagent)
  | some wells =>
    match minByUsage u wells with
    | none => .error (.emptySourceWellList reagent)
    | some best => .ok (best, bumpUsage u best)

/-- Python `round(q, 4)` on exact values: round `q * 10000` to the
nearest integer, ties to even, and scale back. -/
def roundHalfEven (q : ℚ) : ℤ :=
  let f := ⌊q⌋
  let r := q - f
  if r < 1 / 2 then f
  else if 1 / 2 < r then f + 1
  else if f % 2 = 0 then f else f + 1

/-- Python's `round(q, 4)`. -/
def round4 (q : ℚ) : ℚ := (roundHalfEven (q * 10000) : ℚ) / 10000

/-- The inner `for part in parts` loop of one reaction: pick a source
well for each part in order, emitting `(src, target, dispense_vol, part)`
and threading the usage state. -/
def processParts (m : ReagentMap) (d : ℚ) (target : String) :
    Usage → List String → Except PlanError (List DispenseRecord × Usage)
  | u, [] => .ok ([], u)
  | u, p :: ps => do
    let (src, u') ← pick_source_well m u p
    let (rest, u'') ← processParts m d target u' ps
    return (⟨src, target, d, p⟩ :: rest, u'')

/-- One iteration of the `for target, parts in reactions` loop: the
mastermix volume check, the part loop, then the optional filler row. -/
def processReaction (m : ReagentMap) (V d : ℚ) (mm_well mm_name : String)
    (u : Usage) (target : String) (parts : List String) :
    Except PlanError (List DispenseRecord × Usage) :=
  let n := parts.length
  let mm_vol := round4 (V - n * d)
  if mm_vol < 0 then .error (.volumeExceeded target n d V)
  else do
    let (recs, u') ← processParts m d target u parts
    if 0 < mm_vol then return (recs ++ [⟨mm_well, target, mm_vol, mm_name⟩], u')
    else return (recs, u')

/-- The full reaction loop, threading usage and concatenating each
reaction's block of rows. -/
def processReactions (m : ReagentMap) (V d : ℚ) (mm_well mm_name : String) :
    Usage → List (String × List String) →
    Except PlanError (List DispenseRecord × Usage)
  | u, [] => .ok ([], u)
  | u, (target, parts) :: rest => do
    let (recs, u') ← processReaction m V d mm_well mm_name u target parts
    let (more, u'') ← processReactions m V d mm_well mm_name u' rest
    return (recs ++ more, u'')

/-- Lexicographic comparison of character lists by code point: how
Python compares strings. -/
def strLeChars : List Char → List Char → Bool
  | [], _ => true
  | _ :: _, [] => false
  | c :: cs, d :: ds =>
    if c.toNat < d.toNat then true
    else if d.toNat < c.toNat then false
    else strLeChars cs ds

/-- Python's `<=` on strings (lexicographic by code point), as used by
`sorted` on the missing-reagent set. -/
def pyStrLe (a b : String) : Prop := strLeChars a.data b.data = true

instance : DecidableRel pyStrLe := fun a b => by
  unfold pyStrLe; infer_instance

/-- Python's `sorted(missing)`: the parts referenced by the reactions but absent
from the reagent map, deduplicated and sorted lexicographically (the
Python code takes a set difference and sorts it). -/
def missingParts (reactions : List (String × List String)) (m : ReagentMap) :
    List String :=
  (((reactions.flatMap (·.2)).filter
      (fun p => (lookupReagent m p).isNone)).dedup).insertionSort pyStrLe

/-- The planner `build_dispense_rows`, with the final usage state exposed. -/
def build_dispense_rows_aux (reactions : List (String × List String))
    (m : ReagentMap) (total_vol dispense_vol : ℚ) (mm_well mm_name : String) :
    Except PlanError (List DispenseRecord × Usage) :=
  let missing := missingParts reactions m
  if missing ≠ [] then .error (.missingReagents missing)
  else processReactions m total_vol dispense_vol mm_well mm_name emptyUsage reactions

/-- The planner `build_dispense_rows(reactions, reagent_to_wells, total_vol,
dispense_vol, mm_well, mm_name)`: the list of dispense rows (the usage
dict is local and discarded). -/
def build_dispense_rows (reactions : List (String × List String))
    (m : ReagentMap) (total_vol dispense_vol : ℚ) (mm_well mm_name : String) :
    Except PlanError (List DispenseRecord) :=
  (build_dispense_rows_aux reactions m total_vol dispense_vol mm_well mm_name).map (·.1)

/-- Two successive invocations of `build_dispense_rows` on the same
inputs; each call creates its `well_usage` dict afresh, so nothing is
shared between the components. -/
def plan_twice (reactions : List (String × List String)) (m : ReagentMap)
    (total_vol dispense_vol : ℚ) (mm_well mm_name : String) :
    Except PlanError (List DispenseRecord) × Except PlanError (List DispenseRecord) :=
  (build_dispense_rows reactions m total_vol dispense_vol mm_well mm_name,
   build_dispense_rows reactions m total_vol dispense_vol mm_well mm_name)

/-- Lexicographic order on sort keys, as Python compares tuples. -/
def keyLex (x y : Nat × Nat) : Prop :=
  x.1 < y.1 ∨ (x.1 = y.1 ∧ x.2 ≤ y.2)

instance : DecidableRel keyLex := fun x y => by
  unfold keyLex; infer_instance

/-- Python's `sorted(wells, key=well_sort_key)`: a stable sort by the display
key (Python's `sorted` is stable; `insertionSort` is too). -/
def sortByWellKey (l : List String) : List String :=
  l.insertionSort (fun a b => keyLex (well_sort_key a) (well_sort_key b))

end IDot

/- Core marks the rational-number operations irreducible, which blocks
elaborator-side evaluation of concrete planner runs; restore the default
reducibility for this development so that `decide` and `rfl` can compute
with concrete volumes. -/
attribute [local semireducible] Rat.sub Rat.add Rat.mul Rat.inv

namespace IDot

/-! ## Helper lemmas about the well grid -/

theorem all_wells_96_length : all_wells_96.length = 96 := by decide

theorem all_wells_96_nodup : all_wells_96.Nodup := by decide

theorem all_wells_96_pairwise_key :
    List.Pairwise (fun a b => keyLex (well_sort_key a) (well_sort_key b)) all_wells_96 := by
  decide

theorem all_wells_96_pos :
    ∀ i < 96, all_wells_96.getD i "" =
      String.singleton (ROWS_96.getD (i % 8) 'A') ++ toString (i / 8 + 1) := by
  decide

/-! ## Claim theorems -/

/-- C6: for every `count ≤ 96`, `generate_target_wells` returns exactly
`count` pairwise-distinct wells in column-major order (row cycles
fastest: position `i` is row `i % 8` of `ABCDEFGH` in column `i / 8 + 1`);
for every `count > 96` it fails with the capacity error. -/
theorem generate_target_wells_spec (count : Nat) :
    (count ≤ 96 →
      ∃ ws, generate_target_wells count = .ok ws ∧ ws.length = count ∧ ws.Nodup ∧
        ∀ i < count, ws.getD i "" =
          String.singleton (ROWS_96.getD (i % 8) 'A') ++ toString (i / 8 + 1)) ∧
    (96 < count → generate_target_wells count = .error (.capacityExceeded count 96)) := by
  constructor
  · intro hle
    refine ⟨all_wells_96.take count, ?_, ?_, ?_, ?_⟩
    · simp [generate_target_wells, all_wells_96_length, Nat.not_lt.mpr hle]
    · simp [all_wells_96_length, hle]
    · exact all_wells_96_nodup.sublist (List.take_sublist count all_wells_96)
    · intro i hi
      have hgd : (all_wells_96.take count).getD i "" = all_wells_96.getD i "" := by
        simp only [List.getD_eq_getElem?_getD, List.getElem?_take_of_lt hi]
      rw [hgd]
      exact all_wells_96_pos i (lt_of_lt_of_le hi hle)
  · intro hgt
    simp [generate_target_wells, all_wells_96_length, hgt]

/-- C6 witness: at `count = 4` the enumeration succeeds with the expected
properties, and at `count = 97` it fails with the capacity error. -/
theorem generate_target_wells_spec_witness :
    (∃ ws, generate_target_wells 4 = .ok ws ∧ ws.length = 4 ∧ ws.Nodup ∧
      ∀ i < 4, ws.getD i "" =
        String.singleton (ROWS_96.getD (i % 8) 'A') ++ toString (i / 8 + 1)) ∧
    generate_target_wells 97 = .error (.capacityExceeded 97 96) :=
  ⟨(generate_target_wells_spec 4).1 (by decide),
   (generate_target_wells_spec 97).2 (by decide)⟩

/-- C9: the target-well enumeration is a sorted fixpoint of the display
ordering: sorting any successfully enumerated well list by
`well_sort_key` returns it unchanged. -/
theorem enumeration_sorted_fixpoint (count : Nat) (ws : List String)
    (h : generate_target_wells count = .ok ws) :
    sortByWellKey ws = ws := by
  have hws : ws = all_wells_96.take count := by
    by_cases hc : count > all_wells_96.length
    · simp [generate_target_wells, hc] at h
    · simpa [generate_target_wells, hc] using h.symm
  have hsorted : List.Sorted
      (fun a b => keyLex (well_sort_key a) (well_sort_key b)) ws := by
    rw [hws]
    exact all_wells_96_pairwise_key.sublist (List.take_sublist count all_wells_96)
  exact hsorted.insertionSort_eq

/-- C9 witness: the first three wells are already in display order. -/
theorem enumeration_sorted_fixpoint_witness :
    sortByWellKey ["A1", "B1", "C1"] = ["A1", "B1", "C1"] :=
  enumeration_sorted_fixpoint 3 ["A1", "B1", "C1"] rfl

/-- C8: manual expansion fails exactly on an empty reaction list, and on
any non-empty list whose part lists are non-empty it is the identity
pass-through (duplicate target wells are not deduplicated). -/
theorem build_manual_reactions_spec (l : List (String × List String)) :
    (l = [] → build_manual_reactions l = .error .noManualReactions) ∧
    (l ≠ [] → (∀ pr ∈ l, pr.2 ≠ []) → build_manual_reactions l = .ok l) := by
  constructor
  · intro h; simp [build_manual_reactions, h]
  · intro h _; simp [build_manual_reactions, h]

/-- C8 witness: a list with a duplicated target well passes through
unchanged, and the empty list is rejected. -/
theorem build_manual_reactions_spec_witness :
    build_manual_reactions [("A1", ["p"]), ("A1", ["q"])]
        = .ok [("A1", ["p"]), ("A1", ["q"])] ∧
    build_manual_reactions [] = .error .noManualReactions :=
  ⟨(build_manual_reactions_spec [("A1", ["p"]), ("A1", ["q"])]).2
      (by decide) (by decide),
   (build_manual_reactions_spec []).1 rfl⟩

/-- Python's `min` with a key function returns the first element whose
key attains the minimum: the fold underlying `minByUsage` splits its
input as `l₁ ++ best :: l₂` where everything in `l₁` has a strictly
larger usage count and `best`'s count is a global minimum. -/
theorem foldl_min_first (u : Usage) :
    ∀ (ws : List String) (w : String),
      ∃ l₁ l₂,
        w :: ws = l₁ ++ (ws.foldl (fun best x => if u x < u best then x else best) w) :: l₂ ∧
        (∀ x ∈ l₁, u (ws.foldl (fun best x => if u x < u best then x else best) w) < u x) ∧
        (∀ x ∈ w :: ws, u (ws.foldl (fun best x => if u x < u best then x else best) w) ≤ u x)
  | [], w => ⟨[], [], rfl, by simp, by simp⟩
  | x :: ws, w => by
    simp only [List.foldl_cons]
    by_cases hx : u x < u w
    · rw [if_pos hx]
      obtain ⟨l₁, l₂, hsplit, hlt, hle⟩ := foldl_min_first u ws x
      have hBx : u (ws.foldl (fun best x => if u x < u best then x else best) x) ≤ u x :=
        hle x (by simp)
      refine ⟨w :: l₁, l₂, ?_, ?_, ?_⟩
      · rw [List.cons_append, ← hsplit]
      · intro y hy
        rcases List.mem_cons.1 hy with hyw | hy₁
        · exact hyw ▸ lt_of_le_of_lt hBx hx
        · exact hlt y hy₁
      · intro y hy
        rcases List.mem_cons.1 hy with hyw | hy'
        · exact hyw ▸ le_of_lt (lt_of_le_of_lt hBx hx)
        · exact hle y hy'
    · rw [if_neg hx]
      have hwx : u w ≤ u x := not_lt.1 hx
      obtain ⟨l₁, l₂, hsplit, hlt, hle⟩ := foldl_min_first u ws w
      cases l₁ with
      | nil =>
        simp only [List.nil_append, List.cons.injEq] at hsplit
        obtain ⟨hBw, hl₂⟩ := hsplit
        refine ⟨[], x :: ws, ?_, by simp, ?_⟩
        · simp [← hBw]
        · intro y hy
          rcases List.mem_cons.1 hy with hyw | hy'
          · rw [hyw]; exact hle w (by simp)
          · rcases List.mem_cons.1 hy' with hyx | hy''
            · rw [hyx, ← hBw]; exact hwx
            · exact hle y (List.mem_cons_of_mem w hy'')
      | cons a l₁' =>
        simp only [List.cons_append, List.cons.injEq] at hsplit
        obtain ⟨haw, hws⟩ := hsplit
        have hBw : u (ws.foldl (fun best x => if u x < u best then x else best) w) < u w :=
          haw ▸ hlt a (by simp)
        refine ⟨w :: x :: l₁', l₂, ?_, ?_, ?_⟩
        · rw [List.cons_append, List.cons_append, ← hws]
        · intro y hy
          rcases List.mem_cons.1 hy with hyw | hy'
          · rw [hyw]; exact hBw
          · rcases List.mem_cons.1 hy' with hyx | hy''
            · rw [hyx]; exact lt_of_lt_of_le hBw hwx
            · exact hlt y (List.mem_cons_of_mem a hy'')
        · intro y hy
          rcases List.mem_cons.1 hy with hyw | hy'
          · rw [hyw]; exact le_of_lt hBw
          · rcases List.mem_cons.1 hy' with hyx | hy''
            · rw [hyx]; exact le_of_lt (lt_of_lt_of_le hBw hwx)
            · exact hle y (List.mem_cons_of_mem w hy'')

/-- C2: `pick_source_well` chooses, among the reagent's declared wells, a
well of minimal usage count, breaking ties in favor of the
earliest-declared well (everything declared before the choice has a
strictly larger count), and increments exactly that well's count. -/
theorem pick_source_well_spec (m : ReagentMap) (u : Usage) (reagent : String)
    (wells : List String) (hw : lookupReagent m reagent = some wells)
    (hne : wells ≠ []) :
    ∃ best u', pick_source_well m u reagent = .ok (best, u') ∧
      (∃ l₁ l₂, wells = l₁ ++ best :: l₂ ∧ ∀ x ∈ l₁, u best < u x) ∧
      (∀ x ∈ wells, u best ≤ u x) ∧
      u' best = u best + 1 ∧ ∀ x, x ≠ best → u' x = u x := by
  obtain ⟨w, ws, rfl⟩ : ∃ w ws, wells = w :: ws := by
    cases wells with
    | nil => exact absurd rfl hne
    | cons a l => exact ⟨a, l, rfl⟩
  obtain ⟨l₁, l₂, hsplit, hlt, hle⟩ := foldl_min_first u ws w
  refine ⟨ws.foldl (fun best x => if u x < u best then x else best) w,
    bumpUsage u (ws.foldl (fun best x => if u x < u best then x else best) w),
    ?_, ⟨l₁, l₂, hsplit, hlt⟩, hle, ?_, ?_⟩
  · simp [pick_source_well, hw, minByUsage]
  · simp [bumpUsage]
  · intro x hx
    simp [bumpUsage, hx]

/-- C2 witness: a reagent declared at `["A1", "A2"]` and used once in
each of three consecutive reactions is drawn from `A1`, `A2`, `A1`,
leaving usage counts 2 and 1. -/
theorem pick_source_well_spec_witness :
    (∃ best u', pick_source_well [("R", ["A1", "A2"])] emptyUsage "R" = .ok (best, u') ∧
      (∃ l₁ l₂, ["A1", "A2"] = l₁ ++ best :: l₂ ∧ ∀ x ∈ l₁, emptyUsage best < emptyUsage x) ∧
      (∀ x ∈ ["A1", "A2"], emptyUsage best ≤ emptyUsage x) ∧
      u' best = emptyUsage best + 1 ∧ ∀ x, x ≠ best → u' x = emptyUsage x) ∧
    (build_dispense_rows_aux [("T1", ["R"]), ("T2", ["R"]), ("T3", ["R"])]
        [("R", ["A1", "A2"])] (1/2) (1/2) "B12" "MM").map
      (fun pr => (pr.1.map DispenseRecord.source, pr.2 "A1", pr.2 "A2"))
      = .ok (["A1", "A2", "A1"], 2, 1) :=
  ⟨pick_source_well_spec [("R", ["A1", "A2"])] emptyUsage "R" ["A1", "A2"]
      rfl (by decide),
   by decide⟩

/-- Unfolding lemma: binding a successful `Except` runs the continuation. -/
@[simp] theorem except_bind_ok {ε α β : Type _} (a : α) (f : α → Except ε β) :
    (Except.ok a : Except ε α) >>= f = f a := rfl

/-- Unfolding lemma: binding a failed `Except` propagates the error. -/
@[simp] theorem except_bind_error {ε α β : Type _} (e : ε) (f : α → Except ε β) :
    (Except.error e : Except ε α) >>= f = Except.error e := rfl

/-- Unfolding lemma: `pure` is `Except.ok`. -/
@[simp] theorem except_pure {ε α : Type _} (a : α) :
    (pure a : Except ε α) = Except.ok a := rfl

/-- If some reaction's parts alone exceed the total volume, the reaction
loop can never return a result, whatever usage state it starts from. -/
theorem processReactions_not_ok_of_neg (m : ReagentMap) (V d : ℚ)
    (mmw mmn t : String) (parts : List String)
    (hneg : round4 (V - parts.length * d) < 0) :
    ∀ (reactions : List (String × List String)), (t, parts) ∈ reactions →
      ∀ u res, processReactions m V d mmw mmn u reactions ≠ .ok res := by
  intro reactions
  induction reactions with
  | nil => intro h; simp at h
  | cons hd rest ih =>
    intro hmem u res heq
    obtain ⟨t', parts'⟩ := hd
    rcases List.mem_cons.1 hmem with hh | ht
    · obtain ⟨rfl, rfl⟩ : t = t' ∧ parts = parts' := by
        simpa [Prod.ext_iff] using hh
      simp [processReactions, processReaction, hneg] at heq
    · cases hpr : processReaction m V d mmw mmn u t' parts' with
      | error e => simp [processReactions, hpr] at heq
      | ok pr =>
        obtain ⟨recs, u₁⟩ := pr
        cases hrr : processReactions m V d mmw mmn u₁ rest with
        | error e => simp [processReactions, hpr, hrr] at heq
        | ok res' => exact ih ht u₁ res' hrr

/-- C1: each reaction's filler volume is `round4 (V - n·d)`; when it is
negative the reaction fails with a `volumeExceeded` error naming the
target, part count, per-part volume and total volume — and the whole
planning run containing that reaction produces no record list; when it
is zero the reaction's block is exactly its part records; when it is
positive exactly one filler record `(mm_well, target, filler, mm_name)`
is appended to the block. -/
theorem filler_volume_spec (m : ReagentMap) (V d : ℚ) (mm_well mm_name : String)
    (u : Usage) (target : String) (parts : List String) :
    (round4 (V - parts.length * d) < 0 →
      processReaction m V d mm_well mm_name u target parts
          = .error (.volumeExceeded target parts.length d V) ∧
      ∀ (reactions : List (String × List String)) (rows : List DispenseRecord),
        (target, parts) ∈ reactions →
        build_dispense_rows reactions m V d mm_well mm_name ≠ .ok rows) ∧
    (∀ recs u', processParts m d target u parts = .ok (recs, u') →
      (round4 (V - parts.length * d) = 0 →
        processReaction m V d mm_well mm_name u target parts = .ok (recs, u')) ∧
      (0 < round4 (V - parts.length * d) →
        processReaction m V d mm_well mm_name u target parts
          = .ok (recs ++ [⟨mm_well, target, round4 (V - parts.length * d), mm_name⟩], u'))) := by
  constructor
  · intro hneg
    constructor
    · simp [processReaction, hneg]
    · intro reactions rows hmem hok
      unfold build_dispense_rows build_dispense_rows_aux at hok
      by_cases hmiss : missingParts reactions m ≠ []
      · simp [hmiss, Except.map] at hok
      · simp only [hmiss, if_neg, ite_false, if_false] at hok
        cases hpr : processReactions m V d mm_well mm_name emptyUsage reactions with
        | error e => simp [hpr, Except.map] at hok
        | ok res =>
          exact processReactions_not_ok_of_neg m V d mm_well mm_name target parts hneg
            reactions hmem emptyUsage res hpr
  · intro recs u' hp
    constructor
    · intro h0
      simp [processReaction, hp, h0]
    · intro hpos
      have hn : ¬ round4 (V - parts.length * d) < 0 := not_lt.2 (le_of_lt hpos)
      simp [processReaction, hp, hn, hpos]

/-- C1 witness: with `V = 10` and `d = 0.5`, a reaction with 21 parts
fails (and a run containing it yields no rows), one with 20 parts emits
no filler record, and one with 3 parts emits exactly one filler record
of volume 8.5. -/
theorem filler_volume_spec_witness :
    (processReaction [("p", ["A1"])] 10 (1/2) "A12" "MM" emptyUsage "T"
        (List.replicate 21 "p")
      = .error (.volumeExceeded "T" 21 (1/2) 10)) ∧
    (∀ rows, build_dispense_rows [("T", List.replicate 21 "p")] [("p", ["A1"])]
        10 (1/2) "A12" "MM" ≠ .ok rows) ∧
    (∃ recs u', processParts [("p", ["A1"])] (1/2) "T" emptyUsage
        (List.replicate 20 "p") = .ok (recs, u') ∧
      processReaction [("p", ["A1"])] 10 (1/2) "A12" "MM" emptyUsage "T"
        (List.replicate 20 "p") = .ok (recs, u')) ∧
    (∃ recs u', processParts [("p", ["A1"])] (1/2) "T" emptyUsage
        (List.replicate 3 "p") = .ok (recs, u') ∧
      processReaction [("p", ["A1"])] 10 (1/2) "A12" "MM" emptyUsage "T"
        (List.replicate 3 "p") = .ok (recs ++ [⟨"A12", "T", 17/2, "MM"⟩], u')) := by
  refine ⟨?_, ?_, ?_, ?_⟩
  · exact ((filler_volume_spec [("p", ["A1"])] 10 (1/2) "A12" "MM" emptyUsage "T"
      (List.replicate 21 "p")).1 (by decide)).1
  · intro rows
    exact ((filler_volume_spec [("p", ["A1"])] 10 (1/2) "A12" "MM" emptyUsage "T"
      (List.replicate 21 "p")).1 (by decide)).2 [("T", List.replicate 21 "p")] rows
      (by simp)
  · refine ⟨_, _, rfl, ?_⟩
    exact (((filler_volume_spec [("p", ["A1"])] 10 (1/2) "A12" "MM" emptyUsage "T"
      (List.replicate 20 "p")).2 _ _ rfl).1 (by decide))
  · refine ⟨_, _, rfl, ?_⟩
    have h := (((filler_volume_spec [("p", ["A1"])] 10 (1/2) "A12" "MM" emptyUsage "T"
      (List.replicate 3 "p")).2 _ _ rfl).2 (by decide))
    have hv : round4 (10 - ((List.replicate 3 "p").length : ℚ) * (1/2)) = 17/2 := by decide
    rw [hv] at h
    exact h

/-- Totality of the code-point lexicographic comparison. -/
theorem strLeChars_total : ∀ as bs, strLeChars as bs = true ∨ strLeChars bs as = true := by
  intro as
  induction as with
  | nil => intro bs; left; rfl
  | cons c cs ih =>
    intro bs
    cases bs with
    | nil => right; rfl
    | cons d ds =>
      by_cases h1 : c.toNat < d.toNat
      · left; simp [strLeChars, h1]
      · by_cases h2 : d.toNat < c.toNat
        · right; simp [strLeChars, h2]
        · rcases ih ds with h | h
          · left; simp [strLeChars, h1, h2, h]
          · right; simp [strLeChars, h1, h2, h]

/-- Transitivity of the code-point lexicographic comparison. -/
theorem strLeChars_trans : ∀ as bs cs, strLeChars as bs = true →
    strLeChars bs cs = true → strLeChars as cs = true := by
  intro as
  induction as with
  | nil => intro bs cs _ _; rfl
  | cons x xs ih =>
    intro bs cs hab hbc
    cases bs with
    | nil => simp [strLeChars] at hab
    | cons y ys =>
      cases cs with
      | nil => simp [strLeChars] at hbc
      | cons z zs =>
        simp only [strLeChars] at hab hbc ⊢
        by_cases hxy : x.toNat < y.toNat
        · by_cases hyz : y.toNat < z.toNat
          · simp [lt_trans hxy hyz]
          · by_cases hzy : z.toNat < y.toNat
            · rw [if_neg hyz, if_pos hzy] at hbc
              exact absurd hbc (by simp)
            · have hxz : x.toNat < z.toNat := by omega
              simp [hxz]
        · by_cases hyx : y.toNat < x.toNat
          · rw [if_neg hxy, if_pos hyx] at hab
            exact absurd hab (by simp)
          · rw [if_neg hxy, if_neg hyx] at hab
            by_cases hyz : y.toNat < z.toNat
            · have hxz : x.toNat < z.toNat := by omega
              simp [hxz]
            · by_cases hzy : z.toNat < y.toNat
              · rw [if_neg hyz, if_pos hzy] at hbc
                exact absurd hbc (by simp)
              · rw [if_neg hyz, if_neg hzy] at hbc
                have hxz : ¬ x.toNat < z.toNat := by omega
                have hzx : ¬ z.toNat < x.toNat := by omega
                rw [if_neg hxz, if_neg hzx]
                exact ih ys zs hab hbc

/-- C4: if any referenced part is absent from the reagent map, planning
fails up front with a `missingReagents` error whose list contains every
missing part (and only those), sorted — no record list is produced. -/
theorem missing_reagent_preflight (reactions : List (String × List String))
    (m : ReagentMap) (V d : ℚ) (mmw mmn : String) (p : String)
    (hp : p ∈ reactions.flatMap (·.2)) (hmiss : lookupReagent m p = none) :
    ∃ miss, build_dispense_rows reactions m V d mmw mmn
        = .error (.missingReagents miss) ∧
      miss.Sorted pyStrLe ∧
      ∀ q, q ∈ miss ↔ (q ∈ reactions.flatMap (·.2) ∧ lookupReagent m q = none) := by
  have hmem : ∀ q, q ∈ missingParts reactions m ↔
      (q ∈ reactions.flatMap (·.2) ∧ lookupReagent m q = none) := by
    intro q
    simp [missingParts, List.mem_insertionSort, List.mem_dedup, List.mem_filter,
      Option.isNone_iff_eq_none]
  have hne : missingParts reactions m ≠ [] := by
    intro hnil
    have := (hmem p).2 ⟨hp, hmiss⟩
    rw [hnil] at this
    exact List.not_mem_nil p this
  refine ⟨missingParts reactions m, ?_, ?_, hmem⟩
  · simp [build_dispense_rows, build_dispense_rows_aux, hne, Except.map]
  · have htot : IsTotal String pyStrLe := ⟨fun a b => strLeChars_total a.data b.data⟩
    have htrans : IsTrans String pyStrLe := ⟨fun a b c => strLeChars_trans a.data b.data c.data⟩
    exact @List.sorted_insertionSort String pyStrLe _ htot htrans _

/-- C4 witness: with reactions referencing `z` and `q` and an empty
reagent map, planning fails listing both missing parts in sorted order. -/
theorem missing_reagent_preflight_witness :
    (∃ miss, build_dispense_rows [("A1", ["z", "q"])] [] 10 (1/2) "A1" "MM"
        = .error (.missingReagents miss) ∧
      miss.Sorted pyStrLe ∧
      ∀ x, x ∈ miss ↔ (x ∈ ([("A1", ["z", "q"])] : List (String × List String)).flatMap (·.2) ∧
        lookupReagent [] x = none)) ∧
    missingParts [("A1", ["z", "q"])] [] = ["q", "z"] :=
  ⟨missing_reagent_preflight [("A1", ["z", "q"])] [] 10 (1/2) "A1" "MM" "z"
      (by simp) rfl,
   by decide⟩

/-- The Cartesian product has one element per choice function: its
length is the product of the group lengths. -/
theorem cartesianProduct_length :
    ∀ groups : List (List String),
      (cartesianProduct groups).length = (groups.map List.length).prod := by
  intro groups
  induction groups with
  | nil => rfl
  | cons g gs ih =>
    simp [cartesianProduct, List.length_flatMap, Function.comp_def, ih,
      List.map_const', List.sum_replicate, smul_eq_mul, Nat.mul_comm]

/-- Membership in the Cartesian product is exactly choosing one element
from each group, in group order. -/
theorem cartesianProduct_mem :
    ∀ (groups : List (List String)) (combo : List String),
      combo ∈ cartesianProduct groups ↔ List.Forall₂ (· ∈ ·) combo groups := by
  intro groups
  induction groups with
  | nil =>
    intro combo
    simp [cartesianProduct, List.forall₂_nil_right_iff]
  | cons g gs ih =>
    intro combo
    simp only [cartesianProduct, List.mem_flatMap, List.mem_map,
      List.forall₂_cons_right_iff]
    constructor
    · rintro ⟨x, hx, c', hc', rfl⟩
      exact ⟨x, c', hx, (ih c').1 hc', rfl⟩
    · rintro ⟨x, c', hx, hc', rfl⟩
      exact ⟨x, hx, c', (ih c').2 hc', rfl⟩

/-- C3: combinatorial expansion fails on an empty group list; otherwise
it builds one reaction per element of the full Cartesian product of the
groups (count = product of group sizes, elements = one part from each
group in group order), each part list extended by the common parts, with
target wells assigned by the well enumeration in production order, and
it fails with the capacity error when the combination count exceeds
plate capacity.  The concrete conjunct checks the lexicographic order
(first group slowest) and the column-major well assignment. -/
theorem build_combinatorial_reactions_spec (common : List String)
    (groups : List (List String)) :
    (groups = [] → build_combinatorial_reactions common groups = .error .noGroups) ∧
    ((cartesianProduct groups).length = (groups.map List.length).prod) ∧
    (∀ combo, combo ∈ cartesianProduct groups ↔ List.Forall₂ (· ∈ ·) combo groups) ∧
    (groups ≠ [] → (cartesianProduct groups).length ≤ 96 →
      ∃ ts, generate_target_wells (cartesianProduct groups).length = .ok ts ∧
        build_combinatorial_reactions common groups
          = .ok (ts.zip ((cartesianProduct groups).map (fun combo => combo ++ common)))) ∧
    (groups ≠ [] → 96 < (cartesianProduct groups).length →
      build_combinatorial_reactions common groups
        = .error (.capacityExceeded (cartesianProduct groups).length 96)) ∧
    build_combinatorial_reactions ["c"] [["a", "b"], ["x", "y"]]
      = .ok [("A1", ["a", "x", "c"]), ("B1", ["a", "y", "c"]),
             ("C1", ["b", "x", "c"]), ("D1", ["b", "y", "c"])] := by
  refine ⟨?_, cartesianProduct_length groups, cartesianProduct_mem groups, ?_, ?_, by decide⟩
  · intro h
    simp [build_combinatorial_reactions, h]
  · intro hne hle
    refine ⟨all_wells_96.take (cartesianProduct groups).length, ?_, ?_⟩
    · simp [generate_target_wells, all_wells_96_length, Nat.not_lt.mpr hle]
    · simp [build_combinatorial_reactions, hne, generate_target_wells,
        all_wells_96_length, Nat.not_lt.mpr hle]
  · intro hne hgt
    simp [build_combinatorial_reactions, hne, generate_target_wells,
      all_wells_96_length, hgt]

/-- C3 witness: the 2×2 example succeeds through the general case, and a
single group of 97 parts overflows the plate. -/
theorem build_combinatorial_reactions_spec_witness :
    (∃ ts, generate_target_wells
        (cartesianProduct [["a", "b"], ["x", "y"]]).length = .ok ts ∧
      build_combinatorial_reactions ["c"] [["a", "b"], ["x", "y"]]
        = .ok (ts.zip ((cartesianProduct [["a", "b"], ["x", "y"]]).map
            (fun combo => combo ++ ["c"])))) ∧
    build_combinatorial_reactions [] [List.replicate 97 "g"]
      = .error (.capacityExceeded 97 96) := by
  constructor
  · exact (build_combinatorial_reactions_spec ["c"] [["a", "b"], ["x", "y"]]).2.2.2.1
      (by decide) (by decide)
  · have h := (build_combinatorial_reactions_spec [] [List.replicate 97 "g"]).2.2.2.2.1
      (by decide) (by decide)
    have hlen : (cartesianProduct [List.replicate 97 "g"]).length = 97 := by decide
    rw [hlen] at h
    exact h

/-- A successful pick returns the chosen well with exactly its usage
count bumped. -/
theorem pick_source_well_ok_inv (m : ReagentMap) (u : Usage) (reagent src : String)
    (u₁ : Usage) (h : pick_source_well m u reagent = .ok (src, u₁)) :
    u₁ = bumpUsage u src := by
  cases hl : lookupReagent m reagent with
  | none => simp [pick_source_well, hl] at h
  | some wells =>
    cases hm : minByUsage u wells with
    | none => simp [pick_source_well, hl, hm] at h
    | some best =>
      simp [pick_source_well, hl, hm] at h
      rw [← h.1, ← h.2]

/-- A successful part loop emits exactly one record per part, in part
order, each with the loop's target and volume and the part's name. -/
theorem processParts_ok_shape (m : ReagentMap) (d : ℚ) (t : String) :
    ∀ (parts : List String) (u : Usage) (recs : List DispenseRecord) (u' : Usage),
      processParts m d t u parts = .ok (recs, u') →
      ∃ srcs, srcs.length = parts.length ∧
        recs = List.zipWith (fun s p => DispenseRecord.mk s t d p) srcs parts := by
  intro parts
  induction parts with
  | nil =>
    intro u recs u' h
    simp [processParts] at h
    exact ⟨[], rfl, by simp [← h.1]⟩
  | cons p ps ih =>
    intro u recs u' h
    cases hpk : pick_source_well m u p with
    | error e => simp [processParts, hpk] at h
    | ok su =>
      obtain ⟨src, u₁⟩ := su
      cases hrec : processParts m d t u₁ ps with
      | error e => simp [processParts, hpk, hrec] at h
      | ok ru =>
        obtain ⟨rest, u₂⟩ := ru
        simp [processParts, hpk, hrec] at h
        obtain ⟨srcs, hlen, hshape⟩ := ih u₁ rest u₂ hrec
        exact ⟨src :: srcs, by simp [hlen], by simp [← h.1, hshape]⟩

/-- A successful reaction block is the part records followed by the
filler record exactly when the filler volume is positive; the usage
state is the one left by the part loop. -/
theorem processReaction_ok_inv (m : ReagentMap) (V d : ℚ) (mmw mmn : String)
    (u : Usage) (t : String) (parts : List String) (recs : List DispenseRecord)
    (u' : Usage) (h : processReaction m V d mmw mmn u t parts = .ok (recs, u')) :
    ∃ precs, processParts m d t u parts = .ok (precs, u') ∧
      recs = precs ++ (if 0 < round4 (V - parts.length * d)
        then [DispenseRecord.mk mmw t (round4 (V - parts.length * d)) mmn] else []) := by
  by_cases hneg : round4 (V - parts.length * d) < 0
  · simp [processReaction, hneg] at h
  · cases hp : processParts m d t u parts with
    | error e => simp [processReaction, hneg, hp] at h
    | ok pu =>
      obtain ⟨precs, u₁⟩ := pu
      by_cases hpos : 0 < round4 (V - parts.length * d)
      · simp [processReaction, hneg, hp, hpos] at h
        exact ⟨precs, by rw [h.2], by simp [hpos, ← h.1]⟩
      · simp [processReaction, hneg, hp, hpos] at h
        exact ⟨precs, by rw [h.2], by simp [hpos, ← h.1]⟩

/-- C5 engine: a successful reaction loop splits its output into one
contiguous block per reaction, in reaction order; block `i` is one
record per part of reaction `i` in part order (volume `d`, liquid = the
part), followed by the filler record exactly when its volume is
positive. -/
theorem processReactions_blocks (m : ReagentMap) (V d : ℚ) (mmw mmn : String) :
    ∀ (reactions : List (String × List String)) (u : Usage)
      (rows : List DispenseRecord) (u₂ : Usage),
      processReactions m V d mmw mmn u reactions = .ok (rows, u₂) →
      ∃ bs : List (List DispenseRecord),
        bs.length = reactions.length ∧ rows = bs.flatten ∧
        ∀ (i : Nat) (t : String) (parts : List String), reactions[i]? = some (t, parts) →
          ∃ srcs block, bs[i]? = some block ∧ srcs.length = parts.length ∧
            block = List.zipWith (fun s p => DispenseRecord.mk s t d p) srcs parts
              ++ (if 0 < round4 (V - parts.length * d)
                  then [DispenseRecord.mk mmw t (round4 (V - parts.length * d)) mmn]
                  else []) := by
  intro reactions
  induction reactions with
  | nil =>
    intro u rows u₂ h
    simp [processReactions] at h
    exact ⟨[], rfl, by simp [← h.1], by simp⟩
  | cons hd rest ih =>
    intro u rows u₂ h
    obtain ⟨t', parts'⟩ := hd
    cases hpr : processReaction m V d mmw mmn u t' parts' with
    | error e => simp [processReactions, hpr] at h
    | ok pu =>
      obtain ⟨recs, u₁⟩ := pu
      cases hrr : processReactions m V d mmw mmn u₁ rest with
      | error e => simp [processReactions, hpr, hrr] at h
      | ok ru =>
        obtain ⟨more, u₃⟩ := ru
        simp [processReactions, hpr, hrr] at h
        obtain ⟨bs', hlen', hflat', hblocks'⟩ := ih u₁ more u₃ hrr
        obtain ⟨precs, hpp, hrecs⟩ := processReaction_ok_inv m V d mmw mmn u t' parts'
          recs u₁ hpr
        obtain ⟨srcs, hslen, hshape⟩ := processParts_ok_shape m d t' parts' u precs u₁ hpp
        refine ⟨recs :: bs', by simp [hlen'], by simp [← h.1, hflat'], ?_⟩
        intro i t parts hi
        cases i with
        | zero =>
          simp only [List.getElem?_cons_zero, Option.some.injEq] at hi
          obtain ⟨rfl, rfl⟩ : t' = t ∧ parts' = parts := by
            simpa [Prod.ext_iff] using hi
          exact ⟨srcs, recs, by simp, hslen, by rw [hrecs, hshape]⟩
        | succ j =>
          simp only [List.getElem?_cons_succ] at hi
          obtain ⟨srcs', block', hb, hl, hs⟩ := hblocks' j t parts hi
          exact ⟨srcs', block', by simpa using hb, hl, hs⟩

/-- C5: a successful planning run's record list is ordered as: reactions
in input order; within each reaction one record per part in part order
(volume `d`, liquid = the part's name); and the filler record, when
present, last in the reaction's block. -/
theorem build_dispense_rows_order (reactions : List (String × List String))
    (m : ReagentMap) (V d : ℚ) (mmw mmn : String) (rows : List DispenseRecord)
    (h : build_dispense_rows reactions m V d mmw mmn = .ok rows) :
    ∃ bs : List (List DispenseRecord),
      bs.length = reactions.length ∧ rows = bs.flatten ∧
      ∀ (i : Nat) (t : String) (parts : List String), reactions[i]? = some (t, parts) →
        ∃ srcs block, bs[i]? = some block ∧ srcs.length = parts.length ∧
          block = List.zipWith (fun s p => DispenseRecord.mk s t d p) srcs parts
            ++ (if 0 < round4 (V - parts.length * d)
                then [DispenseRecord.mk mmw t (round4 (V - parts.length * d)) mmn]
                else []) := by
  unfold build_dispense_rows build_dispense_rows_aux at h
  by_cases hmiss : missingParts reactions m ≠ []
  · simp [hmiss, Except.map] at h
  · simp only [hmiss, if_neg, ite_false, if_false] at h
    cases hpr : processReactions m V d mmw mmn emptyUsage reactions with
    | error e => simp [hpr, Except.map] at h
    | ok res =>
      obtain ⟨rows', u₂⟩ := res
      rw [hpr] at h
      simp [Except.map] at h
      rw [← h]
      exact processReactions_blocks m V d mmw mmn reactions emptyUsage rows' u₂ hpr

/-- C5 witness: a concrete two-reaction run decomposes into the expected
blocks. -/
theorem build_dispense_rows_order_witness :
    ∃ bs : List (List DispenseRecord),
      bs.length = ([("T1", ["p", "q"]), ("T2", ["p"])] :
          List (String × List String)).length ∧
      [DispenseRecord.mk "A1" "T1" (1/2) "p", DispenseRecord.mk "B1" "T1" (1/2) "q",
       DispenseRecord.mk "M1" "T1" 9 "MM", DispenseRecord.mk "A1" "T2" (1/2) "p",
       DispenseRecord.mk "M1" "T2" (19/2) "MM"] = bs.flatten ∧
      ∀ (i : Nat) (t : String) (parts : List String), ([("T1", ["p", "q"]), ("T2", ["p"])] :
          List (String × List String))[i]? = some (t, parts) →
        ∃ srcs block, bs[i]? = some block ∧ srcs.length = parts.length ∧
          block = List.zipWith (fun s p => DispenseRecord.mk s t (1/2) p) srcs parts
            ++ (if 0 < round4 (10 - parts.length * (1/2))
                then [DispenseRecord.mk "M1" t (round4 (10 - parts.length * (1/2))) "MM"]
                else []) :=
  build_dispense_rows_order [("T1", ["p", "q"]), ("T2", ["p"])]
    [("p", ["A1"]), ("q", ["B1"])] 10 (1/2) "M1" "MM"
    [DispenseRecord.mk "A1" "T1" (1/2) "p", DispenseRecord.mk "B1" "T1" (1/2) "q",
     DispenseRecord.mk "M1" "T1" 9 "MM", DispenseRecord.mk "A1" "T2" (1/2) "p",
     DispenseRecord.mk "M1" "T2" (19/2) "MM"] (by decide)

/-- Emitting (or not emitting) the filler record never touches the
usage state: a reaction's resulting usage (or error) is independent of
the filler well and name. -/
theorem processReaction_usage_indep (m : ReagentMap) (V d : ℚ)
    (mmw mmn mmw' mmn' : String) (u : Usage) (t : String) (parts : List String) :
    (processReaction m V d mmw mmn u t parts).map (·.2)
      = (processReaction m V d mmw' mmn' u t parts).map (·.2) := by
  by_cases hneg : round4 (V - parts.length * d) < 0
  · simp [processReaction, hneg]
  · cases hp : processParts m d t u parts with
    | error e => simp [processReaction, hneg, hp, Except.map]
    | ok pu =>
      obtain ⟨recs, u₁⟩ := pu
      by_cases hpos : 0 < round4 (V - parts.length * d)
      · simp [processReaction, hneg, hp, hpos, Except.map]
      · simp [processReaction, hneg, hp, hpos, Except.map]

/-- C10: the usage counter is driven only by part dispenses. First
conjunct: the reaction loop's final usage state (or error) is identical
for any two choices of filler well and name — in particular when the
filler well coincides with a declared source well, filler records still
leave every count untouched. Second conjunct: after the part loop, each
well's count has grown by exactly the number of part records drawn from
it. -/
theorem filler_frame (m : ReagentMap) (V d : ℚ) (mmw mmn mmw' mmn' : String) :
    (∀ (u : Usage) (reactions : List (String × List String)),
      (processReactions m V d mmw mmn u reactions).map (·.2)
        = (processReactions m V d mmw' mmn' u reactions).map (·.2)) ∧
    (∀ (u : Usage) (parts : List String) (t : String)
      (recs : List DispenseRecord) (u' : Usage),
      processParts m d t u parts = .ok (recs, u') →
      ∀ w, u' w = u w + (recs.filter (fun x => x.source == w)).length) := by
  constructor
  · intro u reactions
    induction reactions generalizing u with
    | nil => rfl
    | cons hd rest ih =>
      obtain ⟨t, parts⟩ := hd
      have hind := processReaction_usage_indep m V d mmw mmn mmw' mmn' u t parts
      cases h1 : processReaction m V d mmw mmn u t parts with
      | error e =>
        cases h2 : processReaction m V d mmw' mmn' u t parts with
        | error e' =>
          rw [h1, h2] at hind
          simp only [Except.map] at hind
          cases hind
          simp [processReactions, h1, h2]
        | ok pr =>
          rw [h1, h2] at hind
          simp [Except.map] at hind
      | ok pr =>
        obtain ⟨recs, u₁⟩ := pr
        cases h2 : processReaction m V d mmw' mmn' u t parts with
        | error e =>
          rw [h1, h2] at hind
          simp [Except.map] at hind
        | ok pr' =>
          obtain ⟨recs', u₁'⟩ := pr'
          rw [h1, h2] at hind
          simp only [Except.map, Except.ok.injEq] at hind
          have hu : u₁ = u₁' := hind
          subst hu
          have ihr := ih u₁
          cases hr1 : processReactions m V d mmw mmn u₁ rest with
          | error e =>
            cases hr2 : processReactions m V d mmw' mmn' u₁ rest with
            | error e' =>
              rw [hr1, hr2] at ihr
              simp only [Except.map] at ihr
              cases ihr
              simp [processReactions, h1, h2, hr1, hr2]
            | ok rr =>
              rw [hr1, hr2] at ihr
              simp [Except.map] at ihr
          | ok rr =>
            obtain ⟨more, u₂⟩ := rr
            cases hr2 : processReactions m V d mmw' mmn' u₁ rest with
            | error e =>
              rw [hr1, hr2] at ihr
              simp [Except.map] at ihr
            | ok rr' =>
              obtain ⟨more', u₂'⟩ := rr'
              rw [hr1, hr2] at ihr
              simp only [Except.map, Except.ok.injEq] at ihr
              have hu2 : u₂ = u₂' := ihr
              subst hu2
              simp [processReactions, h1, h2, hr1, hr2, Except.map]
  · intro u parts
    induction parts generalizing u with
    | nil =>
      intro t recs u' h
      simp [processParts] at h
      obtain ⟨h1, h2⟩ := h
      subst h1
      subst h2
      intro w
      simp
    | cons p ps ih =>
      intro t recs u' h
      cases hpk : pick_source_well m u p with
      | error e => simp [processParts, hpk] at h
      | ok su =>
        obtain ⟨src, u₁⟩ := su
        cases hrec : processParts m d t u₁ ps with
        | error e => simp [processParts, hpk, hrec] at h
        | ok ru =>
          obtain ⟨rest, u₂⟩ := ru
          simp [processParts, hpk, hrec] at h
          have hbump : u₁ = bumpUsage u src :=
            pick_source_well_ok_inv m u p src u₁ hpk
          have ihw := ih u₁ t rest u₂ hrec
          intro w
          rw [← h.2, ← h.1]
          by_cases hw : src = w
          · subst hw
            rw [ihw src, hbump]
            simp [bumpUsage, List.filter_cons]
            omega
          · have hbeq : ((DispenseRecord.mk src t d p).source == w) = false := by
              simp [hw]
            rw [ihw w, hbump]
            simp [bumpUsage, List.filter_cons, hbeq, Ne.symm hw]

/-- C10 witness: with reagent `R` at wells `A1, A2` and the mastermix
well also at `A1`, changing the mastermix well to `Z9` changes no usage
count, and after a concrete part loop the count of `A1` equals the
number of part records drawn from it. -/
theorem filler_frame_witness :
    ((processReactions [("R", ["A1", "A2"])] 10 (1/2) "A1" "MM" emptyUsage
        [("T1", ["R"])]).map (·.2)
      = (processReactions [("R", ["A1", "A2"])] 10 (1/2) "Z9" "MMX" emptyUsage
        [("T1", ["R"])]).map (·.2)) ∧
    (∃ recs u', processParts [("R", ["A1", "A2"])] (1/2) "T1" emptyUsage
        ["R", "R", "R"] = .ok (recs, u') ∧
      u' "A1" = emptyUsage "A1"
        + (recs.filter (fun x => x.source == "A1")).length) := by
  constructor
  · exact (filler_frame [("R", ["A1", "A2"])] 10 (1/2) "A1" "MM" "Z9" "MMX").1
      emptyUsage [("T1", ["R"])]
  · refine ⟨_, _, rfl, ?_⟩
    exact (filler_frame [("R", ["A1", "A2"])] 10 (1/2) "A1" "MM" "Z9" "MMX").2
      emptyUsage ["R", "R", "R"] "T1" _ _ rfl "A1"

/-- C7: `build_dispense_rows` is deterministic: two invocations on
identical inputs (each creating its usage counter afresh) return
identical record sequences. -/
theorem plan_twice_deterministic (reactions : List (String × List String))
    (m : ReagentMap) (total_vol dispense_vol : ℚ) (mm_well mm_name : String) :
    (plan_twice reactions m total_vol dispense_vol mm_well mm_name).1
      = (plan_twice reactions m total_vol dispense_vol mm_well mm_name).2 :=
  rfl

end IDot
